import Mathlib

/-!
Shallow embedding of `rx2slices.cpp`: slice-boundary derivation and binary/XML
slice-metadata encoding for an RX2-to-sliced-audio converter.

Machine integers are modelled as `ℕ`/`ℤ` with explicit reduction modulo powers
of two where the C code wraps; `double` arithmetic is modelled exactly on `ℚ`;
byte buffers are `List ℕ` whose entries are byte values.
-/

/-- A C cast of a (mathematical-)integer value to `uint32_t`: reduction modulo
`2^32`, returned as a natural number. -/
def toU32 (x : ℤ) : ℕ := (x % 4294967296).toNat

/-- C `round` from `<cmath>`: round half away from zero, modelled on exact
rationals. -/
def roundC (x : ℚ) : ℤ := if x < 0 then -⌊-x + 1/2⌋ else ⌊x + 1/2⌋

/-- C truncation toward zero, as performed by a cast of a `double` to an
integer type. -/
def truncC (x : ℚ) : ℤ := if x < 0 then ⌈x⌉ else ⌊x⌋

/-- `const int PREVIEW_LATENCY_COMPENSATION = -64;` (rx2slices.cpp:29). -/
def PREVIEW_LATENCY_COMPENSATION : ℤ := -64

/-- `OctatrackMetadata::Slice` (rx2slices.cpp:36-39): a pair of `uint32_t`
frame positions. -/
structure Slice where
  start : ℕ
  end_ : ℕ
deriving DecidableEq, Repr

/-- The fields of class `OctatrackMetadata` (rx2slices.cpp:34-44). -/
structure OctatrackMetadata where
  tempo_val : ℕ
  trim_len : ℕ
  trim_end : ℕ
  slices : List Slice
deriving DecidableEq, Repr

/-- The constructor `OctatrackMetadata(double bpm, int sampleRate, int
totalFrames)` (rx2slices.cpp:46-51):
`tempo_val = (uint32_t)(bpm * 24.0)` (a truncating cast);
`bars = floor(bpm * totalFrames / (sampleRate * 60.0 * 4.0) + 0.5)`;
`trim_len = (uint32_t)(bars * 25.0)`; `trim_end = (uint32_t)totalFrames`.
The slice vector starts empty. -/
def OctatrackMetadata.init (bpm : ℚ) (sampleRate totalFrames : ℤ) : OctatrackMetadata :=
  { tempo_val := toU32 (truncC (bpm * 24))
    trim_len := toU32 (⌊bpm * (totalFrames : ℚ) / ((sampleRate : ℚ) * 60 * 4) + 1/2⌋ * 25)
    trim_end := toU32 totalFrames
    slices := [] }

/-- `OctatrackMetadata::addSlice` (rx2slices.cpp:53-57): append only while
fewer than 64 slices are stored. -/
def OctatrackMetadata.addSlice (m : OctatrackMetadata) (s e : ℕ) : OctatrackMetadata :=
  if m.slices.length < 64 then { m with slices := m.slices ++ [⟨s, e⟩] } else m

/-- Sequentially store a list of byte values at consecutive positions; models
the `for` loops copying the `header` and `unknown` arrays in `getBuffer`
(rx2slices.cpp:61-64). -/
def writeBytes (b : List ℕ) (pos : ℕ) : List ℕ → List ℕ
  | [] => b
  | v :: vs => writeBytes (b.set pos v) (pos + 1) vs

/-- `OctatrackMetadata::write32BE` (rx2slices.cpp:93-96). -/
def write32BE (b : List ℕ) (pos : ℕ) (val : ℕ) : List ℕ :=
  (((b.set pos (val / 16777216 % 256)).set (pos + 1) (val / 65536 % 256)).set
      (pos + 2) (val / 256 % 256)).set (pos + 3) (val % 256)

/-- `OctatrackMetadata::write16BE` (rx2slices.cpp:97-99). -/
def write16BE (b : List ℕ) (pos : ℕ) (val : ℕ) : List ℕ :=
  (b.set pos (val / 256 % 256)).set (pos + 1) (val % 256)

/-- The `header` byte array of `getBuffer` (rx2slices.cpp:61). -/
def headerBytes : List ℕ :=
  [0x46, 0x4F, 0x52, 0x4D, 0x00, 0x00, 0x00, 0x00,
   0x44, 0x50, 0x53, 0x31, 0x53, 0x4D, 0x50, 0x41]

/-- The `unknown` byte array of `getBuffer` (rx2slices.cpp:63). -/
def unknownBytes : List ℕ := [0x00, 0x00, 0x00, 0x00, 0x00, 0x02, 0x00]

/-- One populated iteration of the slice-table loop (rx2slices.cpp:79-83):
write `start`, `end` and the constant loop marker `0xFFFFFFFF` at offset
`58 + i * 12`. -/
def writeSlot (b : List ℕ) (i : ℕ) (x : Slice) : List ℕ :=
  write32BE (write32BE (write32BE b (58 + i * 12) x.start) (58 + i * 12 + 4) x.end_)
    (58 + i * 12 + 8) 4294967295

/-- The slice-table loop `for (size_t i = 0; i < n; ++i)` of `getBuffer`
(rx2slices.cpp:77-84), iterations `0, …, n-1` in order; `getBuffer` runs it
with `n = 64`. Slots with `i ≥ slices.length` are left untouched. -/
def writeSliceTable (slices : List Slice) (b : List ℕ) : ℕ → List ℕ
  | 0 => b
  | n + 1 =>
    if h : n < slices.length then writeSlot (writeSliceTable slices b n) n slices[n]
    else writeSliceTable slices b n

/-- The checksum loop of `getBuffer` (rx2slices.cpp:86-87): `uint16_t
checksum = 0; for (int i = 16; i <= 829; ++i) checksum += buffer[i];` with
wrapping `uint16_t` accumulation. -/
def checksumAcc (b : List ℕ) : ℕ :=
  (List.range 814).foldl (fun acc i => (acc + b.getD (16 + i) 0) % 65536) 0

/-- `OctatrackMetadata::getBuffer` (rx2slices.cpp:59-90): an 832-byte zeroed
buffer filled with the header, constants, tempo/trim fields, the 64-slot
slice table, the slice count at 826 and the checksum at 830. -/
def OctatrackMetadata.getBuffer (m : OctatrackMetadata) : List ℕ :=
  let b0 := List.replicate 832 0
  let b1 := writeBytes b0 0 headerBytes
  let b2 := writeBytes b1 16 unknownBytes
  let b3 := write32BE b2 23 m.tempo_val
  let b4 := write32BE b3 27 m.trim_len
  let b5 := write32BE b4 31 m.trim_len
  let b6 := write32BE b5 35 0
  let b7 := write32BE b6 39 0
  let b8 := write16BE b7 43 48
  let b9 := b8.set 45 255
  let b10 := write32BE b9 46 0
  let b11 := write32BE b10 50 m.trim_end
  let b12 := write32BE b11 54 0
  let b13 := writeSliceTable m.slices b12 64
  let b14 := write32BE b13 826 m.slices.length
  write16BE b14 830 (checksumAcc b14)

/-- Read back a big-endian 16-bit value from a buffer. -/
def readBE16 (b : List ℕ) (pos : ℕ) : ℕ := b.getD pos 0 * 256 + b.getD (pos + 1) 0

/-- Read back a big-endian 32-bit value from a buffer. -/
def readBE32 (b : List ℕ) (pos : ℕ) : ℕ :=
  ((b.getD pos 0 * 256 + b.getD (pos + 1) 0) * 256 + b.getD (pos + 2) 0) * 256
    + b.getD (pos + 3) 0

/-- The plain (unwrapped) sum of the bytes at offsets 16 through 829
inclusive. -/
def checksumRange (b : List ℕ) : ℕ :=
  ((List.range 814).map (fun i => b.getD (16 + i) 0)).sum

/-- A resolved sample-accurate slice: the `int start`/`int end` pair computed
per marker in `main` (rx2slices.cpp:229-234), before the `uint32_t` casts. -/
structure SliceBoundary where
  start : ℤ
  end_ : ℤ
deriving DecidableEq, Repr

/-- The latency-compensated rounded start frame of a marker at musical
position `p` (rx2slices.cpp:229,234): `round(p / L * T) +
PREVIEW_LATENCY_COMPENSATION`, where `L` is `info.fPPQLength` and `T` is
`lengthFrames`. -/
def rawStart (L : ℚ) (T : ℤ) (p : ℚ) : ℤ :=
  roundC (p / L * (T : ℚ)) + PREVIEW_LATENCY_COMPENSATION

/-- The slice-boundary loop of `main` (rx2slices.cpp:226-237) as a pure
function of the marker positions: `start = max(0, rawStart p_i)`; `end` is
`max(0, rawStart p_(i+1) - 1)` for a non-final marker and `T - 1` for the
final one. -/
def computeBoundaries (L : ℚ) (T : ℤ) : List ℚ → List SliceBoundary
  | [] => []
  | [p] => [⟨max 0 (rawStart L T p), T - 1⟩]
  | p :: q :: ps =>
    ⟨max 0 (rawStart L T p), max 0 (rawStart L T q - 1)⟩ :: computeBoundaries L T (q :: ps)

/-- The `-octa` output branch of `main` (rx2slices.cpp:224-238): construct the
metadata object, feed every boundary through `addSlice` (casting both frames
to `uint32_t`), and flatten with `getBuffer`. -/
def encodeBinary (bpm : ℚ) (sampleRate totalFrames : ℤ) (bs : List SliceBoundary) : List ℕ :=
  (bs.foldl (fun m b => m.addSlice (toU32 b.start) (toU32 b.end_))
    (OctatrackMetadata.init bpm sampleRate totalFrames)).getBuffer

/-- The full binary pipeline: boundary calculator followed by the binary
encoder, as run by `main` for `-octa`. -/
def pipelineBinary (bpm : ℚ) (sampleRate : ℤ) (L : ℚ) (T : ℤ) (ps : List ℚ) : List ℕ :=
  encodeBinary bpm sampleRate T (computeBoundaries L T ps)

/-- Fixed-point decimal rendering with six digits after the point; models
`std::fixed << std::setprecision(6)` (rx2slices.cpp:253) for the nonnegative
values printed there. -/
def formatFixed6 (q : ℚ) : String :=
  let n : ℤ := roundC (q * 1000000)
  let frac := (n % 1000000).toNat
  let s := toString frac
  toString (n / 1000000) ++ "." ++ String.mk (List.replicate (6 - s.length) '0') ++ s

/-- One `<slice … />` output line of the XML branch (rx2slices.cpp:253), with
`q` the start time in seconds. The element carries a `start` attribute only. -/
def sliceLine (q : ℚ) : String :=
  "       <slice start=\x22" ++ formatFixed6 q ++ "\x22 />"

/-- The XML branch of `main` (rx2slices.cpp:249-254): one `<slice/>` line per
marker, in order, with `start = (double)start / info.fSampleRate`; the start
frame recomputed exactly as in the boundary loop; no cap, no end attribute. -/
def xmlSliceLines (sampleRate : ℤ) (L : ℚ) (T : ℤ) (ps : List ℚ) : List String :=
  ps.map (fun p => sliceLine (((max 0 (rawStart L T p) : ℤ) : ℚ) / (sampleRate : ℚ)))

/-- The byte written by the slice-table loop at offset `58 + i * 12 + r`
(`r < 12`) of a populated slot holding slice `x`: big-endian bytes of
`start`, then of `end`, then of the loop marker `0xFFFFFFFF`. -/
def slotByte (x : Slice) (r : ℕ) : ℕ :=
  if r = 0 then x.start / 16777216 % 256
  else if r = 1 then x.start / 65536 % 256
  else if r = 2 then x.start / 256 % 256
  else if r = 3 then x.start % 256
  else if r = 4 then x.end_ / 16777216 % 256
  else if r = 5 then x.end_ / 65536 % 256
  else if r = 6 then x.end_ / 256 % 256
  else if r = 7 then x.end_ % 256
  else 255

theorem getD_set (l : List ℕ) (i j a : ℕ) :
    (l.set i a).getD j 0 = if i = j ∧ i < l.length then a else l.getD j 0 := by
  simp only [List.getD_eq_getElem?_getD, List.getElem?_set]
  by_cases h1 : i = j
  · subst h1
    by_cases h2 : i < l.length
    · simp [h2]
    · simp [h2, List.getElem?_eq_none (Nat.le_of_not_lt h2)]
  · simp [h1]

theorem length_writeBytes (vs : List ℕ) : ∀ (b : List ℕ) (pos : ℕ),
    (writeBytes b pos vs).length = b.length := by
  induction vs with
  | nil => intro b pos; rfl
  | cons v vs ih => intro b pos; simp [writeBytes, ih]

theorem length_write32BE (b : List ℕ) (pos val : ℕ) :
    (write32BE b pos val).length = b.length := by
  simp [write32BE]

theorem length_write16BE (b : List ℕ) (pos val : ℕ) :
    (write16BE b pos val).length = b.length := by
  simp [write16BE]

theorem length_writeSlot (b : List ℕ) (i : ℕ) (x : Slice) :
    (writeSlot b i x).length = b.length := by
  simp [writeSlot, length_write32BE]

theorem length_writeSliceTable (s : List Slice) (b : List ℕ) :
    ∀ n, (writeSliceTable s b n).length = b.length := by
  intro n
  induction n with
  | zero => rfl
  | succ n ih =>
    simp only [writeSliceTable]
    split
    · simp [length_writeSlot, ih]
    · exact ih

theorem getD_writeBytes_out (vs : List ℕ) : ∀ (b : List ℕ) (pos p : ℕ),
    (p < pos ∨ pos + vs.length ≤ p) →
    (writeBytes b pos vs).getD p 0 = b.getD p 0 := by
  induction vs with
  | nil => intro b pos p _; rfl
  | cons v vs ih =>
    intro b pos p hp
    simp only [writeBytes]
    rw [ih (b.set pos v) (pos + 1) p (by simp at hp ⊢; omega)]
    rw [getD_set]
    rw [if_neg (by simp at hp; omega)]

theorem getD_write32BE_out (b : List ℕ) (pos val p : ℕ)
    (hp : p < pos ∨ pos + 4 ≤ p) :
    (write32BE b pos val).getD p 0 = b.getD p 0 := by
  simp only [write32BE]
  rw [getD_set, getD_set, getD_set, getD_set]
  simp only [List.length_set]
  split_ifs <;> omega

theorem getD_write16BE_out (b : List ℕ) (pos val p : ℕ)
    (hp : p < pos ∨ pos + 2 ≤ p) :
    (write16BE b pos val).getD p 0 = b.getD p 0 := by
  simp only [write16BE]
  rw [getD_set, getD_set]
  simp only [List.length_set]
  split_ifs <;> omega

theorem getD_set_out (b : List ℕ) (pos val p : ℕ) (hp : p ≠ pos) :
    (b.set pos val).getD p 0 = b.getD p 0 := by
  rw [getD_set, if_neg (by omega)]

theorem getD_write32BE_at (b : List ℕ) (pos val : ℕ) (hb : pos + 4 ≤ b.length) :
    (write32BE b pos val).getD pos 0 = val / 16777216 % 256 ∧
    (write32BE b pos val).getD (pos + 1) 0 = val / 65536 % 256 ∧
    (write32BE b pos val).getD (pos + 2) 0 = val / 256 % 256 ∧
    (write32BE b pos val).getD (pos + 3) 0 = val % 256 := by
  simp only [write32BE]
  refine ⟨?_, ?_, ?_, ?_⟩ <;>
    · rw [getD_set, getD_set, getD_set, getD_set]
      simp only [List.length_set]
      split_ifs <;> simp only [true_and, not_lt] at * <;> omega

theorem getD_write16BE_at (b : List ℕ) (pos val : ℕ) (hb : pos + 2 ≤ b.length) :
    (write16BE b pos val).getD pos 0 = val / 256 % 256 ∧
    (write16BE b pos val).getD (pos + 1) 0 = val % 256 := by
  simp only [write16BE]
  refine ⟨?_, ?_⟩ <;>
    · rw [getD_set, getD_set]
      simp only [List.length_set]
      split_ifs <;> simp only [true_and, not_lt] at * <;> omega

/-- Reading back a 32-bit big-endian field recovers the value modulo `2^32`. -/
theorem readBE32_write32BE (b : List ℕ) (pos val : ℕ) (hb : pos + 4 ≤ b.length) :
    readBE32 (write32BE b pos val) pos = val % 4294967296 := by
  obtain ⟨h0, h1, h2, h3⟩ := getD_write32BE_at b pos val hb
  rw [readBE32, h0, h1, h2, h3]
  omega

theorem getD_writeSlot_out (b : List ℕ) (i : ℕ) (x : Slice) (p : ℕ)
    (hp : p < 58 + i * 12 ∨ 58 + i * 12 + 12 ≤ p) :
    (writeSlot b i x).getD p 0 = b.getD p 0 := by
  simp only [writeSlot]
  rw [getD_write32BE_out _ _ _ _ (by omega), getD_write32BE_out _ _ _ _ (by omega),
    getD_write32BE_out _ _ _ _ (by omega)]

theorem getD_write32BE (b : List ℕ) (pos val p : ℕ) (hb : pos + 4 ≤ b.length) :
    (write32BE b pos val).getD p 0 =
      if p = pos then val / 16777216 % 256
      else if p = pos + 1 then val / 65536 % 256
      else if p = pos + 2 then val / 256 % 256
      else if p = pos + 3 then val % 256
      else b.getD p 0 := by
  simp only [write32BE]
  rw [getD_set, getD_set, getD_set, getD_set]
  simp only [List.length_set]
  split_ifs <;> simp only [true_and, not_lt] at * <;> omega

theorem getD_writeSlot_at (b : List ℕ) (i : ℕ) (x : Slice) (r : ℕ)
    (hb : 58 + i * 12 + 12 ≤ b.length) (hr : r < 12) :
    (writeSlot b i x).getD (58 + i * 12 + r) 0 = slotByte x r := by
  simp only [writeSlot]
  rw [getD_write32BE (write32BE (write32BE b (58 + i * 12) x.start) (58 + i * 12 + 4) x.end_)
    (58 + i * 12 + 8) 4294967295 (58 + i * 12 + r)
    (by rw [length_write32BE, length_write32BE]; omega)]
  rw [getD_write32BE (write32BE b (58 + i * 12) x.start) (58 + i * 12 + 4) x.end_
    (58 + i * 12 + r) (by rw [length_write32BE]; omega)]
  rw [getD_write32BE b (58 + i * 12) x.start (58 + i * 12 + r) (by omega)]
  interval_cases r <;> (repeat rw [if_neg (by omega)]) <;> rw [if_pos (by omega)] <;>
    simp [slotByte]

theorem getD_writeSliceTable_out (s : List Slice) (b : List ℕ) :
    ∀ n p, (p < 58 ∨ 58 + n * 12 ≤ p) → (writeSliceTable s b n).getD p 0 = b.getD p 0 := by
  intro n
  induction n with
  | zero => intro p _; rfl
  | succ n ih =>
    intro p hp
    simp only [writeSliceTable]
    split
    · rw [getD_writeSlot_out _ _ _ _ (by omega)]
      exact ih p (by omega)
    · exact ih p (by omega)

theorem getD_writeSliceTable_slot (s : List Slice) (b : List ℕ) (hb : b.length = 832) :
    ∀ n j r, n ≤ 64 → j < n → r < 12 →
    (writeSliceTable s b n).getD (58 + j * 12 + r) 0 =
      if h : j < s.length then slotByte s[j] r else b.getD (58 + j * 12 + r) 0 := by
  intro n
  induction n with
  | zero => intro j r _ hj _; exact absurd hj (Nat.not_lt_zero j)
  | succ n ih =>
    intro j r hn hj hr
    simp only [writeSliceTable]
    by_cases hc : n < s.length
    · rw [dif_pos hc]
      by_cases hj2 : j = n
      · subst hj2
        rw [getD_writeSlot_at _ _ _ _ (by rw [length_writeSliceTable]; omega) hr]
        rw [dif_pos hc]
      · rw [getD_writeSlot_out _ _ _ _ (by omega)]
        exact ih j r (by omega) (by omega) hr
    · rw [dif_neg hc]
      by_cases hj2 : j = n
      · subst hj2
        rw [getD_writeSliceTable_out s b j _ (by omega)]
        rw [dif_neg hc]
      · exact ih j r (by omega) (by omega) hr

theorem foldl_wrap_sum (l : List ℕ) : ∀ a : ℕ,
    l.foldl (fun acc x => (acc + x) % 65536) (a % 65536) = (a + l.sum) % 65536 := by
  induction l with
  | nil => intro a; simp
  | cons x xs ih =>
    intro a
    simp only [List.foldl_cons, List.sum_cons]
    have h1 : (a % 65536 + x) % 65536 = (a + x) % 65536 := by omega
    rw [h1, ih (a + x)]
    omega

theorem checksumAcc_eq (b : List ℕ) : checksumAcc b = checksumRange b % 65536 := by
  have h := foldl_wrap_sum ((List.range 814).map (fun i => b.getD (16 + i) 0)) 0
  rw [List.foldl_map] at h
  simpa [checksumAcc, checksumRange] using h

theorem getD_replicate0 (n p : ℕ) : (List.replicate n (0 : ℕ)).getD p 0 = 0 := by
  simp only [List.getD_eq_getElem?_getD, List.getElem?_replicate]
  split <;> simp

/-- The buffer after the two header-copy loops (`b2` in `getBuffer`). -/
def buf2 : List ℕ := writeBytes (writeBytes (List.replicate 832 0) 0 headerBytes) 16 unknownBytes

/-- The buffer after the tempo write. -/
def buf3 (m : OctatrackMetadata) : List ℕ := write32BE buf2 23 m.tempo_val

/-- The buffer after the first trim-length write. -/
def buf4 (m : OctatrackMetadata) : List ℕ := write32BE (buf3 m) 27 m.trim_len

/-- The buffer after the duplicated trim-length write. -/
def buf5 (m : OctatrackMetadata) : List ℕ := write32BE (buf4 m) 31 m.trim_len

/-- The buffer after all remaining fixed-field writes (`b12` in `getBuffer`). -/
def buf12 (m : OctatrackMetadata) : List ℕ :=
  write32BE (write32BE ((write16BE (write32BE (write32BE (buf5 m) 35 0) 39 0) 43
    48).set 45 255) 46 0) 50 m.trim_end

/-- `b12` with the final reserved write at 54. -/
def buf12' (m : OctatrackMetadata) : List ℕ := write32BE (buf12 m) 54 0

/-- The buffer after the slice table (`b13` in `getBuffer`). -/
def buf13 (m : OctatrackMetadata) : List ℕ := writeSliceTable m.slices (buf12' m) 64

/-- The buffer after the slice-count write (`b14` in `getBuffer`). -/
def buf14 (m : OctatrackMetadata) : List ℕ := write32BE (buf13 m) 826 m.slices.length

theorem getBuffer_eq (m : OctatrackMetadata) :
    m.getBuffer = write16BE (buf14 m) 830 (checksumAcc (buf14 m)) := rfl

theorem length_buf2 : buf2.length = 832 := by
  unfold buf2
  rw [length_writeBytes, length_writeBytes, List.length_replicate]

theorem length_buf14 (m : OctatrackMetadata) : (buf14 m).length = 832 := by
  simp only [buf14, buf13, buf12', buf12, buf5, buf4, buf3]
  rw [length_write32BE, length_writeSliceTable, length_write32BE, length_write32BE,
    length_write32BE, List.length_set, length_write16BE, length_write32BE, length_write32BE,
    length_write32BE, length_write32BE, length_write32BE, length_buf2]

theorem length_getBuffer (m : OctatrackMetadata) : m.getBuffer.length = 832 := by
  rw [getBuffer_eq, length_write16BE, length_buf14]

theorem readBE32_congr (b c : List ℕ) (pos : ℕ)
    (h : ∀ p, pos ≤ p → p < pos + 4 → b.getD p 0 = c.getD p 0) :
    readBE32 b pos = readBE32 c pos := by
  rw [readBE32, readBE32, h pos (by omega) (by omega), h (pos + 1) (by omega) (by omega),
    h (pos + 2) (by omega) (by omega), h (pos + 3) (by omega) (by omega)]

theorem length_buf5 (m : OctatrackMetadata) : (buf5 m).length = 832 := by
  simp only [buf5, buf4, buf3]
  rw [length_write32BE, length_write32BE, length_write32BE, length_buf2]

theorem length_buf12' (m : OctatrackMetadata) : (buf12' m).length = 832 := by
  simp only [buf12', buf12]
  rw [length_write32BE, length_write32BE, length_write32BE, List.length_set,
    length_write16BE, length_write32BE, length_write32BE, length_buf5]

theorem length_buf13 (m : OctatrackMetadata) : (buf13 m).length = 832 := by
  simp only [buf13]
  rw [length_writeSliceTable, length_buf12']

theorem getD_buf14_of_buf3 (m : OctatrackMetadata) (p : ℕ) (h1 : 23 ≤ p) (h2 : p < 27) :
    (buf14 m).getD p 0 = (buf3 m).getD p 0 := by
  simp only [buf14, buf13, buf12', buf12, buf5, buf4]
  rw [getD_write32BE_out _ _ _ _ (by omega)]
  rw [getD_writeSliceTable_out m.slices _ 64 p (by omega)]
  rw [getD_write32BE_out _ _ _ _ (by omega)]
  rw [getD_write32BE_out _ _ _ _ (by omega)]
  rw [getD_write32BE_out _ _ _ _ (by omega)]
  rw [getD_set_out _ _ _ _ (by omega)]
  rw [getD_write16BE_out _ _ _ _ (by omega)]
  rw [getD_write32BE_out _ _ _ _ (by omega)]
  rw [getD_write32BE_out _ _ _ _ (by omega)]
  rw [getD_write32BE_out _ _ _ _ (by omega)]
  rw [getD_write32BE_out _ _ _ _ (by omega)]

theorem getD_buf14_of_buf4 (m : OctatrackMetadata) (p : ℕ) (h1 : 27 ≤ p) (h2 : p < 31) :
    (buf14 m).getD p 0 = (buf4 m).getD p 0 := by
  simp only [buf14, buf13, buf12', buf12, buf5]
  rw [getD_write32BE_out _ _ _ _ (by omega)]
  rw [getD_writeSliceTable_out m.slices _ 64 p (by omega)]
  rw [getD_write32BE_out _ _ _ _ (by omega)]
  rw [getD_write32BE_out _ _ _ _ (by omega)]
  rw [getD_write32BE_out _ _ _ _ (by omega)]
  rw [getD_set_out _ _ _ _ (by omega)]
  rw [getD_write16BE_out _ _ _ _ (by omega)]
  rw [getD_write32BE_out _ _ _ _ (by omega)]
  rw [getD_write32BE_out _ _ _ _ (by omega)]
  rw [getD_write32BE_out _ _ _ _ (by omega)]

theorem getD_buf14_of_buf5 (m : OctatrackMetadata) (p : ℕ) (h1 : 31 ≤ p) (h2 : p < 35) :
    (buf14 m).getD p 0 = (buf5 m).getD p 0 := by
  simp only [buf14, buf13, buf12', buf12]
  rw [getD_write32BE_out _ _ _ _ (by omega)]
  rw [getD_writeSliceTable_out m.slices _ 64 p (by omega)]
  rw [getD_write32BE_out _ _ _ _ (by omega)]
  rw [getD_write32BE_out _ _ _ _ (by omega)]
  rw [getD_write32BE_out _ _ _ _ (by omega)]
  rw [getD_set_out _ _ _ _ (by omega)]
  rw [getD_write16BE_out _ _ _ _ (by omega)]
  rw [getD_write32BE_out _ _ _ _ (by omega)]
  rw [getD_write32BE_out _ _ _ _ (by omega)]

theorem getD_buf14_of_buf12 (m : OctatrackMetadata) (p : ℕ) (h1 : 50 ≤ p) (h2 : p < 54) :
    (buf14 m).getD p 0 = (buf12 m).getD p 0 := by
  simp only [buf14, buf13, buf12']
  rw [getD_write32BE_out _ _ _ _ (by omega)]
  rw [getD_writeSliceTable_out m.slices _ 64 p (by omega)]
  rw [getD_write32BE_out _ _ _ _ (by omega)]

theorem readBE32_buf14_tempo (m : OctatrackMetadata) :
    readBE32 (buf14 m) 23 = m.tempo_val % 4294967296 := by
  have h := readBE32_congr (buf14 m) (buf3 m) 23
    (fun p ha hb => getD_buf14_of_buf3 m p ha (by omega))
  rw [h]
  unfold buf3
  exact readBE32_write32BE buf2 23 m.tempo_val (by rw [length_buf2]; omega)

theorem readBE32_buf14_trimlen27 (m : OctatrackMetadata) :
    readBE32 (buf14 m) 27 = m.trim_len % 4294967296 := by
  have h := readBE32_congr (buf14 m) (buf4 m) 27
    (fun p ha hb => getD_buf14_of_buf4 m p ha (by omega))
  rw [h]
  unfold buf4
  exact readBE32_write32BE (buf3 m) 27 m.trim_len
    (by simp only [buf3]; rw [length_write32BE, length_buf2]; omega)

theorem readBE32_buf14_trimlen31 (m : OctatrackMetadata) :
    readBE32 (buf14 m) 31 = m.trim_len % 4294967296 := by
  have h := readBE32_congr (buf14 m) (buf5 m) 31
    (fun p ha hb => getD_buf14_of_buf5 m p ha (by omega))
  rw [h]
  unfold buf5
  exact readBE32_write32BE (buf4 m) 31 m.trim_len
    (by simp only [buf4, buf3]; rw [length_write32BE, length_write32BE, length_buf2]; omega)

theorem readBE32_buf14_trimend (m : OctatrackMetadata) :
    readBE32 (buf14 m) 50 = m.trim_end % 4294967296 := by
  have h := readBE32_congr (buf14 m) (buf12 m) 50
    (fun p ha hb => getD_buf14_of_buf12 m p ha (by omega))
  rw [h]
  unfold buf12
  refine readBE32_write32BE _ 50 m.trim_end ?_
  rw [length_write32BE, List.length_set, length_write16BE, length_write32BE, length_write32BE,
    length_buf5]
  omega

theorem readBE32_buf14_count (m : OctatrackMetadata) :
    readBE32 (buf14 m) 826 = m.slices.length % 4294967296 := by
  unfold buf14
  exact readBE32_write32BE (buf13 m) 826 m.slices.length (by rw [length_buf13]; omega)

theorem getD_buf12'_ge58 (m : OctatrackMetadata) (p : ℕ) (hp : 58 ≤ p) :
    (buf12' m).getD p 0 = 0 := by
  simp only [buf12', buf12, buf5, buf4, buf3]
  rw [getD_write32BE_out _ _ _ _ (by omega)]
  rw [getD_write32BE_out _ _ _ _ (by omega)]
  rw [getD_write32BE_out _ _ _ _ (by omega)]
  rw [getD_set_out _ _ _ _ (by omega)]
  rw [getD_write16BE_out _ _ _ _ (by omega)]
  rw [getD_write32BE_out _ _ _ _ (by omega)]
  rw [getD_write32BE_out _ _ _ _ (by omega)]
  rw [getD_write32BE_out _ _ _ _ (by omega)]
  rw [getD_write32BE_out _ _ _ _ (by omega)]
  rw [getD_write32BE_out _ _ _ _ (by omega)]
  unfold buf2
  rw [getD_writeBytes_out _ _ _ _
    (by simp only [unknownBytes, List.length_cons, List.length_nil]; omega)]
  rw [getD_writeBytes_out _ _ _ _
    (by simp only [headerBytes, List.length_cons, List.length_nil]; omega)]
  exact getD_replicate0 _ _

theorem getD_buf14_slot (m : OctatrackMetadata) (i r : ℕ) (hi : i < 64) (hr : r < 12) :
    (buf14 m).getD (58 + i * 12 + r) 0 =
      if h : i < m.slices.length then slotByte m.slices[i] r else 0 := by
  unfold buf14
  rw [getD_write32BE_out _ _ _ _ (by omega)]
  unfold buf13
  rw [getD_writeSliceTable_slot m.slices (buf12' m) (length_buf12' m) 64 i r (by omega) hi hr]
  by_cases h : i < m.slices.length
  · rw [dif_pos h, dif_pos h]
  · rw [dif_neg h, dif_neg h]
    exact getD_buf12'_ge58 m _ (by omega)

theorem readBE32_buf14_slot_start (m : OctatrackMetadata) (i : ℕ) (hi : i < 64)
    (h : i < m.slices.length) :
    readBE32 (buf14 m) (58 + i * 12) = m.slices[i].start % 4294967296 := by
  have h0 : (buf14 m).getD (58 + i * 12) 0 = slotByte m.slices[i] 0 := by
    have := getD_buf14_slot m i 0 hi (by omega)
    rw [dif_pos h] at this
    simpa using this
  have h1 := getD_buf14_slot m i 1 hi (by omega)
  have h2 := getD_buf14_slot m i 2 hi (by omega)
  have h3 := getD_buf14_slot m i 3 hi (by omega)
  rw [dif_pos h] at h1 h2 h3
  rw [readBE32, h0, h1, h2, h3]
  simp only [slotByte]
  norm_num
  omega

theorem readBE32_buf14_slot_end (m : OctatrackMetadata) (i : ℕ) (hi : i < 64)
    (h : i < m.slices.length) :
    readBE32 (buf14 m) (58 + i * 12 + 4) = m.slices[i].end_ % 4294967296 := by
  have h4 := getD_buf14_slot m i 4 hi (by omega)
  have h5 := getD_buf14_slot m i 5 hi (by omega)
  have h6 := getD_buf14_slot m i 6 hi (by omega)
  have h7 := getD_buf14_slot m i 7 hi (by omega)
  rw [dif_pos h] at h4 h5 h6 h7
  have h5' : (buf14 m).getD (58 + i * 12 + 4 + 1) 0 = slotByte m.slices[i] 5 := h5
  have h6' : (buf14 m).getD (58 + i * 12 + 4 + 2) 0 = slotByte m.slices[i] 6 := h6
  have h7' : (buf14 m).getD (58 + i * 12 + 4 + 3) 0 = slotByte m.slices[i] 7 := h7
  rw [readBE32, h4, h5', h6', h7']
  simp only [slotByte]
  norm_num
  omega

theorem getD_getBuffer_low (m : OctatrackMetadata) (p : ℕ) (hp : p < 830) :
    m.getBuffer.getD p 0 = (buf14 m).getD p 0 := by
  rw [getBuffer_eq]
  exact getD_write16BE_out _ _ _ _ (by omega)

theorem readBE32_getBuffer_low (m : OctatrackMetadata) (pos : ℕ) (hp : pos + 4 ≤ 830) :
    readBE32 m.getBuffer pos = readBE32 (buf14 m) pos :=
  readBE32_congr _ _ pos (fun p h1 h2 => getD_getBuffer_low m p (by omega))

theorem checksumRange_congr (b c : List ℕ)
    (h : ∀ p, 16 ≤ p → p < 830 → b.getD p 0 = c.getD p 0) :
    checksumRange b = checksumRange c := by
  unfold checksumRange
  refine congrArg List.sum (List.map_congr_left ?_)
  intro a ha
  have hlt : a < 814 := List.mem_range.mp ha
  exact h (16 + a) (by omega) (by omega)

/-- The stored checksum equals the wrapped byte sum of the final buffer. -/
theorem checksum_stored (m : OctatrackMetadata) :
    readBE16 m.getBuffer 830 = checksumRange m.getBuffer % 65536 := by
  have hchk : checksumRange m.getBuffer = checksumRange (buf14 m) :=
    checksumRange_congr _ _ (fun p h1 h2 => getD_getBuffer_low m p (by omega))
  rw [hchk, getBuffer_eq]
  obtain ⟨h0, h1⟩ := getD_write16BE_at (buf14 m) 830 (checksumAcc (buf14 m))
    (by rw [length_buf14])
  rw [readBE16, h0, h1, checksumAcc_eq]
  omega

theorem addSlice_tempo_val (m : OctatrackMetadata) (s e : ℕ) :
    (m.addSlice s e).tempo_val = m.tempo_val := by
  unfold OctatrackMetadata.addSlice; split <;> rfl

theorem addSlice_trim_len (m : OctatrackMetadata) (s e : ℕ) :
    (m.addSlice s e).trim_len = m.trim_len := by
  unfold OctatrackMetadata.addSlice; split <;> rfl

theorem addSlice_trim_end (m : OctatrackMetadata) (s e : ℕ) :
    (m.addSlice s e).trim_end = m.trim_end := by
  unfold OctatrackMetadata.addSlice; split <;> rfl

theorem foldl_addSlice_fields (xs : List SliceBoundary) : ∀ m : OctatrackMetadata,
    (xs.foldl (fun m b => m.addSlice (toU32 b.start) (toU32 b.end_)) m).tempo_val
        = m.tempo_val ∧
    (xs.foldl (fun m b => m.addSlice (toU32 b.start) (toU32 b.end_)) m).trim_len
        = m.trim_len ∧
    (xs.foldl (fun m b => m.addSlice (toU32 b.start) (toU32 b.end_)) m).trim_end
        = m.trim_end := by
  induction xs with
  | nil => intro m; exact ⟨rfl, rfl, rfl⟩
  | cons x xs ih =>
    intro m
    simp only [List.foldl_cons]
    obtain ⟨h1, h2, h3⟩ := ih (m.addSlice (toU32 x.start) (toU32 x.end_))
    rw [h1, h2, h3, addSlice_tempo_val, addSlice_trim_len, addSlice_trim_end]
    exact ⟨rfl, rfl, rfl⟩

theorem foldl_addSlice_slices (xs : List SliceBoundary) : ∀ m : OctatrackMetadata,
    m.slices.length ≤ 64 →
    (xs.foldl (fun m b => m.addSlice (toU32 b.start) (toU32 b.end_)) m).slices =
      m.slices ++ (xs.map (fun b => (⟨toU32 b.start, toU32 b.end_⟩ : Slice))).take
        (64 - m.slices.length) := by
  induction xs with
  | nil => intro m hm; simp
  | cons x xs ih =>
    intro m hm
    simp only [List.foldl_cons, List.map_cons]
    by_cases hlt : m.slices.length < 64
    · have ha : m.addSlice (toU32 x.start) (toU32 x.end_) =
          { m with slices := m.slices ++ [⟨toU32 x.start, toU32 x.end_⟩] } := by
        unfold OctatrackMetadata.addSlice; rw [if_pos hlt]
      rw [ha, ih _ (by simp; omega)]
      simp only [List.length_append, List.length_cons, List.length_nil, List.append_assoc]
      have h64 : 64 - m.slices.length = (64 - (m.slices.length + (0 + 1))) + 1 := by omega
      rw [h64, List.take_succ_cons]
      rfl
    · have ha : m.addSlice (toU32 x.start) (toU32 x.end_) = m := by
        unfold OctatrackMetadata.addSlice; rw [if_neg hlt]
      rw [ha, ih m hm]
      have h0 : 64 - m.slices.length = 0 := by omega
      rw [h0]
      simp

theorem length_computeBoundaries (L : ℚ) (T : ℤ) :
    ∀ ps : List ℚ, (computeBoundaries L T ps).length = ps.length := by
  intro ps
  induction ps with
  | nil => rfl
  | cons p t ih =>
    cases t with
    | nil => rfl
    | cons q r => simp only [computeBoundaries, List.length_cons] at ih ⊢; omega

theorem computeBoundaries_getElem_mid (L : ℚ) (T : ℤ) :
    ∀ (ps : List ℚ) (i : ℕ) (h : i + 1 < ps.length)
      (h2 : i < (computeBoundaries L T ps).length),
    (computeBoundaries L T ps).get ⟨i, h2⟩ =
      ⟨max 0 (rawStart L T (ps.get ⟨i, by omega⟩)),
       max 0 (rawStart L T (ps.get ⟨i + 1, h⟩) - 1)⟩ := by
  intro ps
  induction ps with
  | nil => intro i h; simp only [List.length_nil] at h; omega
  | cons p t ih =>
    cases t with
    | nil =>
      intro i h
      simp only [List.length_cons, List.length_nil] at h
      omega
    | cons q r =>
      intro i h h2
      cases i with
      | zero => rfl
      | succ j =>
        have h' : j + 1 < (q :: r).length := by
          simp only [List.length_cons] at h ⊢; omega
        have h2' : j < (computeBoundaries L T (q :: r)).length := by
          rw [length_computeBoundaries] at h2 ⊢
          simp only [List.length_cons] at h2 ⊢; omega
        have := ih j h' h2'
        simpa only [computeBoundaries, List.get_cons_succ] using this

theorem computeBoundaries_getElem_last (L : ℚ) (T : ℤ) :
    ∀ (ps : List ℚ) (i : ℕ) (h : i + 1 = ps.length)
      (h2 : i < (computeBoundaries L T ps).length),
    (computeBoundaries L T ps).get ⟨i, h2⟩ =
      ⟨max 0 (rawStart L T (ps.get ⟨i, by omega⟩)), T - 1⟩ := by
  intro ps
  induction ps with
  | nil => intro i h; simp only [List.length_nil] at h; omega
  | cons p t ih =>
    cases t with
    | nil =>
      intro i h h2
      cases i with
      | zero => rfl
      | succ j => simp only [List.length_cons, List.length_nil] at h; omega
    | cons q r =>
      intro i h h2
      cases i with
      | zero => simp only [List.length_cons] at h; omega
      | succ j =>
        have h' : j + 1 = (q :: r).length := by
          simp only [List.length_cons] at h ⊢; omega
        have h2' : j < (computeBoundaries L T (q :: r)).length := by
          rw [length_computeBoundaries] at h2 ⊢
          simp only [List.length_cons] at h2 ⊢; omega
        have := ih j h' h2'
        simpa only [computeBoundaries, List.get_cons_succ] using this

theorem toU32_eq (z : ℤ) (h1 : 0 ≤ z) (h2 : z < 4294967296) : toU32 z = z.toNat := by
  unfold toU32; omega

theorem toU32_lt (z : ℤ) : toU32 z < 4294967296 := by
  unfold toU32; omega

/-- Claim C10: calling `addSlice` on a metadata object already holding 64
slices leaves the slice list, `tempo_val`, `trim_len` and `trim_end` all
unchanged. -/
theorem addSlice_at_cap_unchanged (m : OctatrackMetadata) (s e : ℕ)
    (h : m.slices.length = 64) :
    (m.addSlice s e).slices = m.slices ∧ (m.addSlice s e).tempo_val = m.tempo_val ∧
    (m.addSlice s e).trim_len = m.trim_len ∧ (m.addSlice s e).trim_end = m.trim_end := by
  have hm : m.addSlice s e = m := by
    unfold OctatrackMetadata.addSlice; rw [if_neg (by omega)]
  rw [hm]
  exact ⟨rfl, rfl, rfl, rfl⟩

theorem addSlice_at_cap_unchanged_witness :
    (OctatrackMetadata.mk 2880 25 88200 (List.replicate 64 ⟨0, 0⟩)).slices.length = 64 ∧
    ((OctatrackMetadata.mk 2880 25 88200 (List.replicate 64 ⟨0, 0⟩)).addSlice 5 9).slices
        = (OctatrackMetadata.mk 2880 25 88200 (List.replicate 64 ⟨0, 0⟩)).slices ∧
    ((OctatrackMetadata.mk 2880 25 88200 (List.replicate 64 ⟨0, 0⟩)).addSlice 5 9).tempo_val
        = (OctatrackMetadata.mk 2880 25 88200 (List.replicate 64 ⟨0, 0⟩)).tempo_val ∧
    ((OctatrackMetadata.mk 2880 25 88200 (List.replicate 64 ⟨0, 0⟩)).addSlice 5 9).trim_len
        = (OctatrackMetadata.mk 2880 25 88200 (List.replicate 64 ⟨0, 0⟩)).trim_len ∧
    ((OctatrackMetadata.mk 2880 25 88200 (List.replicate 64 ⟨0, 0⟩)).addSlice 5 9).trim_end
        = (OctatrackMetadata.mk 2880 25 88200 (List.replicate 64 ⟨0, 0⟩)).trim_end :=
  ⟨by simp, addSlice_at_cap_unchanged _ 5 9 (by simp)⟩

/-- Claim C4: for a non-empty marker list and positive total frame count, the
last boundary produced by the boundary calculator ends at `totalFrames - 1`. -/
theorem lastBoundary_end (L : ℚ) (T : ℤ) (ps : List ℚ) (hps : ps ≠ []) (hT : 0 < T)
    (h2 : ps.length - 1 < (computeBoundaries L T ps).length) :
    ((computeBoundaries L T ps).get ⟨ps.length - 1, h2⟩).end_ = T - 1 := by
  have hpos : 0 < ps.length := List.length_pos.mpr hps
  have := computeBoundaries_getElem_last L T ps (ps.length - 1) (by omega) h2
  rw [this]

theorem lastBoundary_end_witness :
    ([(0 : ℚ), 1/2] ≠ []) ∧ (0 : ℤ) < 88200 ∧
    ((computeBoundaries 1 88200 [0, 1/2]).get ⟨[(0 : ℚ), 1/2].length - 1,
        by rw [length_computeBoundaries]; simp⟩).end_ = 88200 - 1 :=
  ⟨by simp, by norm_num, lastBoundary_end 1 88200 [0, 1/2] (by simp) (by norm_num) _⟩

/-- Claim C5: adjacent boundaries are contiguous whenever neither the end of
slice `i` nor the start of slice `i+1` was clamped to zero, i.e. whenever the
underlying latency-compensated values are nonnegative. -/
theorem boundaries_contiguous (L : ℚ) (T : ℤ) (ps : List ℚ) (i : ℕ)
    (h : i + 1 < ps.length)
    (hend : 0 ≤ rawStart L T (ps.get ⟨i + 1, h⟩) - 1)
    (hstart : 0 ≤ rawStart L T (ps.get ⟨i + 1, h⟩))
    (h2 : i < (computeBoundaries L T ps).length)
    (h3 : i + 1 < (computeBoundaries L T ps).length) :
    ((computeBoundaries L T ps).get ⟨i, h2⟩).end_ + 1 =
      ((computeBoundaries L T ps).get ⟨i + 1, h3⟩).start := by
  rw [computeBoundaries_getElem_mid L T ps i h h2]
  have hchar : ((computeBoundaries L T ps).get ⟨i + 1, h3⟩).start =
      max 0 (rawStart L T (ps.get ⟨i + 1, h⟩)) := by
    by_cases hcase : i + 1 + 1 < ps.length
    · rw [computeBoundaries_getElem_mid L T ps (i + 1) hcase h3]
    · have hlast : i + 1 + 1 = ps.length := by omega
      rw [computeBoundaries_getElem_last L T ps (i + 1) hlast h3]
  rw [hchar]
  dsimp only
  omega

/-- Claim C2: the 16-bit big-endian value at offset 830 of any produced buffer
equals the wrapping 16-bit sum of its bytes at offsets 16 through 829. -/
theorem encodeBinary_checksum (bpm : ℚ) (sampleRate totalFrames : ℤ)
    (bs : List SliceBoundary) :
    readBE16 (encodeBinary bpm sampleRate totalFrames bs) 830 =
      checksumRange (encodeBinary bpm sampleRate totalFrames bs) % 65536 :=
  checksum_stored _

theorem boundaries_contiguous_witness :
    (0 : ℤ) ≤ rawStart 1 88200 (1/2) - 1 ∧ (0 : ℤ) ≤ rawStart 1 88200 (1/2) ∧
    ((computeBoundaries 1 88200 [0, 1/2, 1]).get
        ⟨0, by rw [length_computeBoundaries]; simp⟩).end_ + 1 =
      ((computeBoundaries 1 88200 [0, 1/2, 1]).get
        ⟨1, by rw [length_computeBoundaries]; simp⟩).start := by
  have hraw : rawStart 1 88200 ((1 : ℚ)/2) = 44036 := by
    norm_num [rawStart, roundC, PREVIEW_LATENCY_COMPENSATION]
  have hval1 : (0 : ℤ) ≤ rawStart 1 88200 ((1 : ℚ)/2) - 1 := by rw [hraw]; norm_num
  have hval2 : (0 : ℤ) ≤ rawStart 1 88200 ((1 : ℚ)/2) := by rw [hraw]; norm_num
  exact ⟨hval1, hval2,
    boundaries_contiguous 1 88200 [0, 1/2, 1] 0 (by norm_num) hval1 hval2 _ _⟩

/-- Claim C7: the binary encoder output is always exactly 832 bytes, and all
slice-table slots at or beyond the supplied boundary count stay zeroed. -/
theorem encodeBinary_fixed_size (bpm : ℚ) (sampleRate totalFrames : ℤ)
    (bs : List SliceBoundary) :
    (encodeBinary bpm sampleRate totalFrames bs).length = 832 ∧
    ∀ i r : ℕ, bs.length ≤ i → i < 64 → r < 12 →
      (encodeBinary bpm sampleRate totalFrames bs).getD (58 + i * 12 + r) 0 = 0 := by
  unfold encodeBinary
  constructor
  · exact length_getBuffer _
  · intro i r hi h64 hr
    have hslices : (bs.foldl (fun m b => m.addSlice (toU32 b.start) (toU32 b.end_))
        (OctatrackMetadata.init bpm sampleRate totalFrames)).slices =
        (bs.map (fun b => (⟨toU32 b.start, toU32 b.end_⟩ : Slice))).take 64 := by
      rw [foldl_addSlice_slices bs _ (by simp [OctatrackMetadata.init])]
      simp [OctatrackMetadata.init]
    rw [getD_getBuffer_low _ _ (by omega)]
    rw [getD_buf14_slot _ i r h64 hr]
    have hneg : ¬ (i < (bs.foldl (fun m b => m.addSlice (toU32 b.start) (toU32 b.end_))
        (OctatrackMetadata.init bpm sampleRate totalFrames)).slices.length) := by
      rw [hslices]
      simp only [List.length_take, List.length_map]
      omega
    rw [dif_neg hneg]

theorem encodeBinary_fixed_size_witness :
    (encodeBinary 120 44100 88200 []).length = 832 ∧
    (encodeBinary 120 44100 88200 []).getD (58 + 0 * 12 + 0) 0 = 0 :=
  ⟨(encodeBinary_fixed_size 120 44100 88200 []).1,
   (encodeBinary_fixed_size 120 44100 88200 []).2 0 0 (by simp) (by norm_num) (by norm_num)⟩

/-- Claim C1 counterexample: at `bpm = 120.9` the constructor stores
`(uint32_t)(120.9 * 24) = 2901`, while `round(120.9 * 24) = 2902`; the tempo
field is not the rounding of `bpm * 24`. -/
theorem tempo_field_not_round :
    (OctatrackMetadata.init (1209/10) 44100 88200).tempo_val ≠
      (roundC ((1209/10) * 24)).toNat := by
  have h1 : truncC ((1209/10 : ℚ) * 24) = 2901 := by
    norm_num [truncC]
  have h2 : roundC ((1209/10 : ℚ) * 24) = 2902 := by
    norm_num [roundC]
  show toU32 (truncC ((1209/10 : ℚ) * 24)) ≠ (roundC ((1209/10 : ℚ) * 24)).toNat
  rw [h1, h2]
  decide

/-- Claim C1 (amended): for positive `bpm`, the binary encoder's tempo field
at offset 23 equals the truncation `⌊bpm * 24⌋` of `bpm * 24` toward zero —
not its rounding to the nearest integer. -/
theorem encodeBinary_tempo (bpm : ℚ) (sampleRate totalFrames : ℤ)
    (bs : List SliceBoundary) (hbpm : 0 < bpm) (h32 : ⌊bpm * 24⌋ < 4294967296) :
    readBE32 (encodeBinary bpm sampleRate totalFrames bs) 23 = (⌊bpm * 24⌋).toNat := by
  unfold encodeBinary
  rw [readBE32_getBuffer_low _ 23 (by omega), readBE32_buf14_tempo]
  rw [(foldl_addSlice_fields bs (OctatrackMetadata.init bpm sampleRate totalFrames)).1]
  show toU32 (truncC (bpm * 24)) % 4294967296 = (⌊bpm * 24⌋).toNat
  have hpos : (0 : ℚ) ≤ bpm * 24 := by positivity
  have htr : truncC (bpm * 24) = ⌊bpm * 24⌋ := by
    unfold truncC; rw [if_neg (not_lt.mpr hpos)]
  rw [htr, toU32_eq _ (Int.floor_nonneg.mpr hpos) h32]
  omega

theorem encodeBinary_tempo_witness :
    (0 : ℚ) < 241/2 ∧ ⌊(241/2 : ℚ) * 24⌋ < 4294967296 ∧
    readBE32 (encodeBinary (241/2) 44100 88200 []) 23 = (⌊(241/2 : ℚ) * 24⌋).toNat :=
  ⟨by norm_num, by norm_num, encodeBinary_tempo (241/2) 44100 88200 [] (by norm_num)
    (by norm_num)⟩

/-- Claim C8: the trim fields satisfy `bars = round(bpm * totalFrames /
(sampleRate * 240))`, `trimLen = bars * 25` stored at offsets 27 and 31, and
`trimEnd = totalFrames` stored at offset 50. -/
theorem encodeBinary_trim_fields (bpm : ℚ) (sampleRate totalFrames : ℤ)
    (bs : List SliceBoundary) (hbpm : 0 < bpm) (hsr : 0 < sampleRate)
    (hT : 0 < totalFrames) (hT32 : totalFrames < 4294967296)
    (hbars : roundC (bpm * (totalFrames : ℚ) / ((sampleRate : ℚ) * 240)) * 25 < 4294967296) :
    readBE32 (encodeBinary bpm sampleRate totalFrames bs) 27 =
      (roundC (bpm * (totalFrames : ℚ) / ((sampleRate : ℚ) * 240)) * 25).toNat ∧
    readBE32 (encodeBinary bpm sampleRate totalFrames bs) 31 =
      (roundC (bpm * (totalFrames : ℚ) / ((sampleRate : ℚ) * 240)) * 25).toNat ∧
    readBE32 (encodeBinary bpm sampleRate totalFrames bs) 50 = totalFrames.toNat := by
  have hx : (0 : ℚ) ≤ bpm * (totalFrames : ℚ) / ((sampleRate : ℚ) * 240) := by
    have h1 : (0 : ℚ) ≤ bpm * (totalFrames : ℚ) := by
      apply mul_nonneg hbpm.le
      exact_mod_cast hT.le
    have h2 : (0 : ℚ) ≤ (sampleRate : ℚ) * 240 := by
      have : (0 : ℚ) ≤ (sampleRate : ℚ) := by exact_mod_cast hsr.le
      linarith
    exact div_nonneg h1 h2
  have hround : roundC (bpm * (totalFrames : ℚ) / ((sampleRate : ℚ) * 240)) =
      ⌊bpm * (totalFrames : ℚ) / ((sampleRate : ℚ) * 60 * 4) + 1/2⌋ := by
    unfold roundC
    rw [if_neg (not_lt.mpr hx)]
    have : (sampleRate : ℚ) * 240 = (sampleRate : ℚ) * 60 * 4 := by ring
    rw [this]
  have hbars0 : 0 ≤ ⌊bpm * (totalFrames : ℚ) / ((sampleRate : ℚ) * 60 * 4) + 1/2⌋ := by
    apply Int.floor_nonneg.mpr
    have : (sampleRate : ℚ) * 240 = (sampleRate : ℚ) * 60 * 4 := by ring
    rw [← this]
    linarith
  have htlen : (OctatrackMetadata.init bpm sampleRate totalFrames).trim_len =
      (roundC (bpm * (totalFrames : ℚ) / ((sampleRate : ℚ) * 240)) * 25).toNat := by
    show toU32 (⌊bpm * (totalFrames : ℚ) / ((sampleRate : ℚ) * 60 * 4) + 1/2⌋ * 25) = _
    rw [hround]
    exact toU32_eq _ (by omega) (by rw [← hround]; exact hbars)
  have htend : (OctatrackMetadata.init bpm sampleRate totalFrames).trim_end =
      totalFrames.toNat := by
    show toU32 totalFrames = _
    exact toU32_eq _ hT.le hT32
  have hfields := foldl_addSlice_fields bs (OctatrackMetadata.init bpm sampleRate totalFrames)
  unfold encodeBinary
  refine ⟨?_, ?_, ?_⟩
  · rw [readBE32_getBuffer_low _ 27 (by omega), readBE32_buf14_trimlen27, hfields.2.1, htlen]
    omega
  · rw [readBE32_getBuffer_low _ 31 (by omega), readBE32_buf14_trimlen31, hfields.2.1, htlen]
    omega
  · rw [readBE32_getBuffer_low _ 50 (by omega), readBE32_buf14_trimend, hfields.2.2, htend]
    omega

theorem encodeBinary_trim_fields_witness :
    (0 : ℚ) < 120 ∧ (0 : ℤ) < 44100 ∧ (0 : ℤ) < 88200 ∧ (88200 : ℤ) < 4294967296 ∧
    roundC (120 * (88200 : ℚ) / ((44100 : ℚ) * 240)) * 25 < 4294967296 ∧
    readBE32 (encodeBinary 120 44100 88200 []) 27 =
      (roundC (120 * (88200 : ℚ) / ((44100 : ℚ) * 240)) * 25).toNat ∧
    readBE32 (encodeBinary 120 44100 88200 []) 31 =
      (roundC (120 * (88200 : ℚ) / ((44100 : ℚ) * 240)) * 25).toNat ∧
    readBE32 (encodeBinary 120 44100 88200 []) 50 = (88200 : ℤ).toNat := by
  have h5 : roundC (120 * (88200 : ℚ) / ((44100 : ℚ) * 240)) * 25 < 4294967296 := by
    norm_num [roundC]
  have h := encodeBinary_trim_fields 120 44100 88200 [] (by norm_num) (by norm_num)
    (by norm_num) (by norm_num) h5
  exact ⟨by norm_num, by norm_num, by norm_num, by norm_num, h5, h.1, h.2.1, h.2.2⟩

/-- Claim C3: with more than 64 markers, the encoded slice-count field at
offset 826 equals 64, and the slice table holds exactly the first 64
boundaries in input order. -/
theorem binary_cap_64 (bpm : ℚ) (sampleRate : ℤ) (L : ℚ) (T : ℤ) (ps : List ℚ)
    (h : 64 < ps.length) :
    readBE32 (pipelineBinary bpm sampleRate L T ps) 826 = 64 ∧
    ∀ (i : ℕ) (hi : i < 64) (h2 : i < (computeBoundaries L T ps).length),
      readBE32 (pipelineBinary bpm sampleRate L T ps) (58 + i * 12) =
        toU32 (((computeBoundaries L T ps).get ⟨i, h2⟩).start) ∧
      readBE32 (pipelineBinary bpm sampleRate L T ps) (58 + i * 12 + 4) =
        toU32 (((computeBoundaries L T ps).get ⟨i, h2⟩).end_) := by
  unfold pipelineBinary encodeBinary
  have hbslen : 64 ≤ (computeBoundaries L T ps).length := by
    rw [length_computeBoundaries]; omega
  have hslices : ((computeBoundaries L T ps).foldl
      (fun m b => m.addSlice (toU32 b.start) (toU32 b.end_))
      (OctatrackMetadata.init bpm sampleRate T)).slices =
      ((computeBoundaries L T ps).map
        (fun b => (⟨toU32 b.start, toU32 b.end_⟩ : Slice))).take 64 := by
    rw [foldl_addSlice_slices _ _ (by simp [OctatrackMetadata.init])]
    simp [OctatrackMetadata.init]
  have hlen : ((computeBoundaries L T ps).foldl
      (fun m b => m.addSlice (toU32 b.start) (toU32 b.end_))
      (OctatrackMetadata.init bpm sampleRate T)).slices.length = 64 := by
    rw [hslices]; simp only [List.length_take, List.length_map]; omega
  constructor
  · rw [readBE32_getBuffer_low _ 826 (by omega), readBE32_buf14_count, hlen]
  · intro i hi h2
    have hi' : i < ((computeBoundaries L T ps).foldl
        (fun m b => m.addSlice (toU32 b.start) (toU32 b.end_))
        (OctatrackMetadata.init bpm sampleRate T)).slices.length := by omega
    have hgel : ((computeBoundaries L T ps).foldl
        (fun m b => m.addSlice (toU32 b.start) (toU32 b.end_))
        (OctatrackMetadata.init bpm sampleRate T)).slices[i] =
        ⟨toU32 (((computeBoundaries L T ps).get ⟨i, h2⟩).start),
         toU32 (((computeBoundaries L T ps).get ⟨i, h2⟩).end_)⟩ := by
      rw [List.getElem_of_eq hslices hi']
      simp
    constructor
    · rw [readBE32_getBuffer_low _ _ (by omega), readBE32_buf14_slot_start _ i hi hi', hgel]
      simp only [List.get_eq_getElem]
      exact Nat.mod_eq_of_lt (toU32_lt _)
    · rw [readBE32_getBuffer_low _ _ (by omega), readBE32_buf14_slot_end _ i hi hi', hgel]
      simp only [List.get_eq_getElem]
      exact Nat.mod_eq_of_lt (toU32_lt _)

theorem start_nonneg_aux (L : ℚ) (T : ℤ) : ∀ (qs : List ℚ),
    ∀ b ∈ computeBoundaries L T qs, 0 ≤ b.start := by
  intro qs
  induction qs with
  | nil => intro b hb; simp [computeBoundaries] at hb
  | cons p t ih =>
    cases t with
    | nil =>
      intro b hb
      simp only [computeBoundaries, List.mem_singleton] at hb
      subst hb
      exact le_max_left 0 _
    | cons q r =>
      intro b hb
      simp only [computeBoundaries, List.mem_cons] at hb
      rcases hb with hb | hb
      · subst hb; exact le_max_left 0 _
      · exact ih b hb

theorem boundary_le_aux (L : ℚ) (T : ℤ) : ∀ (qs : List ℚ),
    (qs.map (rawStart L T)).Chain' (· < ·) →
    (∀ p ∈ qs, rawStart L T p ≤ T - 1) → 1 ≤ T →
    ∀ b ∈ computeBoundaries L T qs, b.start ≤ b.end_ := by
  intro qs
  induction qs with
  | nil => intro _ _ _ b hb; simp [computeBoundaries] at hb
  | cons p t ih =>
    cases t with
    | nil =>
      intro hmono hlast hT b hb
      simp only [computeBoundaries, List.mem_singleton] at hb
      subst hb
      show max 0 (rawStart L T p) ≤ T - 1
      rw [max_le_iff]
      exact ⟨by omega, hlast p (by simp)⟩
    | cons q r =>
      intro hmono hlast hT b hb
      simp only [List.map_cons, List.chain'_cons] at hmono
      simp only [computeBoundaries, List.mem_cons] at hb
      rcases hb with hb | hb
      · subst hb
        show max 0 (rawStart L T p) ≤ max 0 (rawStart L T q - 1)
        have hpq : rawStart L T p < rawStart L T q := hmono.1
        exact max_le_max (le_refl 0) (by omega)
      · refine ih ?_ (fun x hx => hlast x (List.mem_cons_of_mem p hx)) hT b hb
        rw [List.map_cons]
        exact hmono.2

/-- Claim C6 counterexample: with non-monotone marker positions (0.9 then 0.1,
unit 1, 1000 frames) the calculator emits the boundary (836, 35), violating
`start ≤ end`; the code never validates marker order. -/
theorem boundary_not_ordered :
    ¬ ∀ b ∈ computeBoundaries 1 1000 [9/10, 1/10], 0 ≤ b.start ∧ b.start ≤ b.end_ := by
  intro hall
  have h1 : rawStart 1 1000 ((9 : ℚ)/10) = 836 := by
    norm_num [rawStart, roundC, PREVIEW_LATENCY_COMPENSATION]
  have h2 : rawStart 1 1000 ((1 : ℚ)/10) = 36 := by
    norm_num [rawStart, roundC, PREVIEW_LATENCY_COMPENSATION]
  have hchar : computeBoundaries 1 1000 [9/10, 1/10] = [⟨836, 35⟩, ⟨36, 999⟩] := by
    simp only [computeBoundaries]
    rw [h1, h2]
    decide
  have hmem : (⟨836, 35⟩ : SliceBoundary) ∈ computeBoundaries 1 1000 [9/10, 1/10] := by
    rw [hchar]
    exact List.mem_cons_self _ _
  exact absurd (hall _ hmem).2 (by decide)

/-- Claim C6 (amended): `0 ≤ start` holds unconditionally for every produced
boundary; `start ≤ end` additionally holds provided the latency-compensated
rounded start frames are strictly increasing along the marker list, each is at
most `totalFrames - 1`, and `totalFrames ≥ 1`. Without the monotonicity
assumption the calculator can emit `end < start`. -/
theorem boundary_invariant_amended (L : ℚ) (T : ℤ) (ps : List ℚ) :
    (∀ b ∈ computeBoundaries L T ps, 0 ≤ b.start) ∧
    ((ps.map (rawStart L T)).Chain' (· < ·) →
     (∀ p ∈ ps, rawStart L T p ≤ T - 1) → 1 ≤ T →
     ∀ b ∈ computeBoundaries L T ps, b.start ≤ b.end_) :=
  ⟨start_nonneg_aux L T ps, fun h1 h2 h3 => boundary_le_aux L T ps h1 h2 h3⟩

theorem boundary_invariant_amended_witness :
    (∀ b ∈ computeBoundaries 1 88200 [0, 1/2], 0 ≤ b.start) ∧
    (([(0 : ℚ), 1/2].map (rawStart 1 88200)).Chain' (· < ·) ∧
     (∀ p ∈ [(0 : ℚ), 1/2], rawStart 1 88200 p ≤ 88200 - 1) ∧ (1 : ℤ) ≤ 88200 ∧
     ∀ b ∈ computeBoundaries 1 88200 [0, 1/2], b.start ≤ b.end_) := by
  have h0 : rawStart 1 88200 ((0 : ℚ)) = -64 := by
    norm_num [rawStart, roundC, PREVIEW_LATENCY_COMPENSATION]
  have h1 : rawStart 1 88200 ((1 : ℚ)/2) = 44036 := by
    norm_num [rawStart, roundC, PREVIEW_LATENCY_COMPENSATION]
  have hmono : ([(0 : ℚ), 1/2].map (rawStart 1 88200)).Chain' (· < ·) := by
    simp only [List.map_cons, List.map_nil, h0, h1]
    rw [List.chain'_cons]
    exact ⟨by decide, List.chain'_singleton _⟩
  have hlast : ∀ p ∈ [(0 : ℚ), 1/2], rawStart 1 88200 p ≤ 88200 - 1 := by
    intro p hp
    rcases List.mem_cons.mp hp with hp1 | hp2
    · subst hp1; rw [h0]; decide
    · rcases List.mem_cons.mp hp2 with hp3 | hp4
      · subst hp3; rw [h1]; decide
      · simp at hp4
  exact ⟨(boundary_invariant_amended 1 88200 [0, 1/2]).1, hmono, hlast, by norm_num,
    (boundary_invariant_amended 1 88200 [0, 1/2]).2 hmono hlast (by norm_num)⟩

theorem binary_cap_64_witness :
    64 < (List.map (fun (k : ℕ) => (k : ℚ)) (List.range 65)).length ∧
    readBE32 (pipelineBinary 120 44100 1 88200 (List.map (fun (k : ℕ) => (k : ℚ)) (List.range 65))) 826
      = 64 ∧
    readBE32 (pipelineBinary 120 44100 1 88200 (List.map (fun (k : ℕ) => (k : ℚ)) (List.range 65)))
        (58 + 0 * 12) =
      toU32 (((computeBoundaries 1 88200 (List.map (fun (k : ℕ) => (k : ℚ)) (List.range 65))).get
        ⟨0, by rw [length_computeBoundaries, List.length_map, List.length_range]; norm_num⟩).start)
      := by
  have hlen : 64 < (List.map (fun (k : ℕ) => (k : ℚ)) (List.range 65)).length := by
    rw [List.length_map, List.length_range]; norm_num
  exact ⟨hlen, (binary_cap_64 120 44100 1 88200 _ hlen).1,
    ((binary_cap_64 120 44100 1 88200 _ hlen).2 0 (by norm_num) _).1⟩

/-- Claim C9: the textual exporter emits exactly one slice line per boundary,
with no cap at 64, and each line carries only a start attribute whose value is
the boundary start frame divided by the sample rate, rendered with six decimal
digits. -/
theorem xml_per_marker (sampleRate : ℤ) (L : ℚ) (T : ℤ) (ps : List ℚ) :
    (xmlSliceLines sampleRate L T ps).length = (computeBoundaries L T ps).length ∧
    ∀ (i : ℕ) (h3 : i < (xmlSliceLines sampleRate L T ps).length)
      (h2 : i < (computeBoundaries L T ps).length),
      (xmlSliceLines sampleRate L T ps).get ⟨i, h3⟩ =
        sliceLine ((((computeBoundaries L T ps).get ⟨i, h2⟩).start : ℚ) / (sampleRate : ℚ)) := by
  constructor
  · rw [length_computeBoundaries]
    simp [xmlSliceLines]
  · intro i h3 h2
    have hip : i < ps.length := by
      have h4 := h3
      simp only [xmlSliceLines, List.length_map] at h4
      exact h4
    have hx : (xmlSliceLines sampleRate L T ps).get ⟨i, h3⟩ =
        sliceLine (((max 0 (rawStart L T (ps.get ⟨i, hip⟩)) : ℤ) : ℚ) / (sampleRate : ℚ)) := by
      simp [xmlSliceLines]
    rw [hx]
    have hstart : ((computeBoundaries L T ps).get ⟨i, h2⟩).start =
        max 0 (rawStart L T (ps.get ⟨i, hip⟩)) := by
      by_cases hcase : i + 1 < ps.length
      · rw [computeBoundaries_getElem_mid L T ps i hcase h2]
      · have hlast : i + 1 = ps.length := by omega
        rw [computeBoundaries_getElem_last L T ps i hlast h2]
    rw [hstart]

theorem xml_per_marker_witness :
    (xmlSliceLines 44100 1 88200 [0]).length = (computeBoundaries 1 88200 [0]).length ∧
    (xmlSliceLines 44100 1 88200 [0]).get ⟨0, by simp [xmlSliceLines]⟩ =
      sliceLine ((((computeBoundaries 1 88200 [0]).get
        ⟨0, by rw [length_computeBoundaries]; simp⟩).start : ℚ) / (44100 : ℚ)) :=
  ⟨(xml_per_marker 44100 1 88200 [0]).1, (xml_per_marker 44100 1 88200 [0]).2 0 _ _⟩
